import Mathlib

/-!
Shallow embedding of `src/Materials/server.py` (GyroFlowLive), a 60 Hz
broadcast server: a module-level dict `clients` maps each websocket to a
per-client sequence counter, a stochastic motion generator produces one
six-channel sample per tick, and a fixed-period loop fans each sample out
to every registered client, detecting timing overruns.

Python dicts are modelled as insertion-ordered association lists with
unique keys; websocket objects are modelled by identifiers; float
arithmetic of the motion model is modelled over the reals, and the
decimal literals and rounding of the emitted lines over the rationals.
-/

namespace GyroFlow

/-- Connection handles: websocket objects are modelled by identifiers.
The `websockets` library hands the server a fresh object per accepted
connection, so a handle is never registered twice. -/
abbrev ClientId := Nat

/-- The `clients` dict (server.py line 49): an insertion-ordered
association list from connection handle to that client's sequence
counter, with the key uniqueness of a Python dict. -/
abbrev Registry := List (ClientId × Nat)

/-- Keys of the registry, in insertion order. -/
def keys (r : Registry) : List ClientId := r.map Prod.fst

/-- Dictionary lookup, `clients.get(ws)`. -/
def lookup? : Registry → ClientId → Option Nat
  | [], _ => none
  | (c, k) :: r, c0 => if c = c0 then some k else lookup? r c0

/-- Dictionary assignment `clients[ws] = k`: overwrites the entry in
place when the key is present, otherwise appends a fresh entry at the
end (Python dicts preserve insertion order). -/
def setEntry : Registry → ClientId → Nat → Registry
  | [], c, k => [(c, k)]
  | (c1, k1) :: r, c, k =>
    if c1 = c then (c, k) :: r else (c1, k1) :: setEntry r c k

/-- Dictionary removal `clients.pop(ws, None)`: removes the entry when
present, otherwise leaves the dict unchanged and raises nothing. -/
def popEntry : Registry → ClientId → Registry
  | [], _ => []
  | (c1, k1) :: r, c => if c1 = c then r else (c1, k1) :: popEntry r c

/-- Registration of a new connection (server.py line 52,
`clients[ws] = 0`): the client's counter starts at 0.  The operation is
a total dict assignment; it cannot fail. -/
def register_client (r : Registry) (c : ClientId) : Registry := setEntry r c 0

/-- Counter advance after a successful send (server.py line 73,
`clients[ws] = counter + 1`, where `counter` is the value captured in
this tick's snapshot): a plain dict assignment, performed whether or not
the entry still exists. -/
def advance_counter (r : Registry) (c : ClientId) (counter : Nat) : Registry :=
  setEntry r c (counter + 1)

theorem setEntry_of_not_mem {r : Registry} {c : ClientId} (k : Nat)
    (h : c ∉ keys r) : setEntry r c k = r ++ [(c, k)] := by
  induction r with
  | nil => rfl
  | cons p r ih =>
    obtain ⟨c1, k1⟩ := p
    simp only [keys, List.map_cons, List.mem_cons] at h
    push_neg at h
    have hne : c1 ≠ c := fun hh => h.1 hh.symm
    simp only [setEntry, if_neg hne, List.cons_append, List.cons.injEq, true_and]
    exact ih h.2

theorem lookup?_setEntry_self (r : Registry) (c : ClientId) (k : Nat) :
    lookup? (setEntry r c k) c = some k := by
  induction r with
  | nil => simp [setEntry, lookup?]
  | cons p r ih =>
    obtain ⟨c1, k1⟩ := p
    by_cases h : c1 = c
    · simp [setEntry, if_pos h, lookup?]
    · simp [setEntry, if_neg h, lookup?, h, ih]

theorem lookup?_setEntry_ne (r : Registry) {c c0 : ClientId} (k : Nat)
    (h : c0 ≠ c) : lookup? (setEntry r c k) c0 = lookup? r c0 := by
  have hcc : ¬ c = c0 := fun hh => h hh.symm
  induction r with
  | nil => simp [setEntry, lookup?, hcc]
  | cons p r ih =>
    obtain ⟨c1, k1⟩ := p
    by_cases h1 : c1 = c
    · subst h1
      simp [setEntry, lookup?, hcc]
    · simp only [setEntry, if_neg h1, lookup?]
      by_cases h2 : c1 = c0 <;> simp [h2, ih]

/-- Claim C9: registering a fresh connection appends a new entry with
counter 0 and alters no entry of any other handle.  The code's register
is a total dict assignment, so it never fails; in particular it fails
only when the handle is already present (vacuously). -/
theorem register_client_fresh_spec (r : Registry) (c : ClientId)
    (h : c ∉ keys r) :
    register_client r c = r ++ [(c, 0)] ∧
    lookup? (register_client r c) c = some 0 ∧
    ∀ c0, c0 ≠ c → lookup? (register_client r c) c0 = lookup? r c0 := by
  refine ⟨setEntry_of_not_mem 0 h, lookup?_setEntry_self r c 0, ?_⟩
  intro c0 hc0
  exact lookup?_setEntry_ne r 0 hc0

/-- Witness for C9 at a concrete registry. -/
theorem register_client_fresh_spec_w :
    7 ∉ keys [(5, 3)] ∧
    (register_client [(5, 3)] 7 = [(5, 3)] ++ [(7, 0)] ∧
     lookup? (register_client [(5, 3)] 7) 7 = some 0 ∧
     ∀ c0, c0 ≠ 7 → lookup? (register_client [(5, 3)] 7) c0 =
       lookup? [(5, 3)] c0) :=
  ⟨by decide, register_client_fresh_spec [(5, 3)] 7 (by decide)⟩

/-- Claim C2, counterexample: applying the post-send counter assignment
`clients[ws] = counter + 1` when the entry has been removed is not a
no-op — on the empty registry with snapshot counter 5 it creates the
entry `(0, 6)`, so the registry is not left unchanged. -/
theorem advance_counter_absent_not_noop :
    advance_counter [] 0 5 = [(0, 6)] ∧ advance_counter [] 0 5 ≠ [] := by
  refine ⟨rfl, ?_⟩
  intro h
  simp [advance_counter, setEntry] at h

/-- Claim C2, amended: when the connection's entry has already been
removed, the post-send assignment resurrects it — it appends a fresh
entry holding the snapshot counter plus 1, leaving the entries of all
other handles unchanged (rather than being a no-op). -/
theorem advance_counter_absent_resurrects (r : Registry) (c : ClientId)
    (counter : Nat) (h : c ∉ keys r) :
    advance_counter r c counter = r ++ [(c, counter + 1)] ∧
    lookup? (advance_counter r c counter) c = some (counter + 1) ∧
    ∀ c0, c0 ≠ c →
      lookup? (advance_counter r c counter) c0 = lookup? r c0 := by
  refine ⟨setEntry_of_not_mem _ h, lookup?_setEntry_self _ _ _, ?_⟩
  intro c0 hc0
  exact lookup?_setEntry_ne r _ hc0

/-- Witness for the amended C2 at a concrete registry. -/
theorem advance_counter_absent_resurrects_w :
    2 ∉ keys [(9, 4)] ∧
    (advance_counter [(9, 4)] 2 7 = [(9, 4)] ++ [(2, 8)] ∧
     lookup? (advance_counter [(9, 4)] 2 7) 2 = some 8 ∧
     ∀ c0, c0 ≠ 2 → lookup? (advance_counter [(9, 4)] 2 7) c0 =
       lookup? [(9, 4)] c0) :=
  ⟨by decide, advance_counter_absent_resurrects [(9, 4)] 2 7 (by decide)⟩

/-- Tick period, `period = 1/60` (server.py line 7). -/
def period : ℚ := 1/60

/-- End-of-tick scheduling step (server.py lines 80-86): advance the
deadline by one period, measure the remaining time against the clock
sample `now1` (the `perf_counter()` of line 81); when positive, sleep
until the deadline; otherwise print the overrun warning and rebase the
deadline to the fresh clock sample `now2` (the `perf_counter()` of line
86, taken after the warning, so `now1 ≤ now2`).  Returns the new
deadline and whether the overrun warning was emitted. -/
def end_of_tick (next_t now1 now2 : ℚ) : ℚ × Bool :=
  let nt := next_t + period
  let sleep_time := nt - now1
  if 0 < sleep_time then (nt, false) else (now2, true)

/-- Claim C4, counterexample: when the clock lands exactly on the
computed deadline, the code reports an overrun (the `sleep_time > 0`
test fails at 0) even though the actual time does not exceed the
deadline, refuting the claimed "if and only if ... exceeds". -/
theorem overrun_at_exact_deadline :
    (end_of_tick 0 (1/60) (1/60)).2 = true ∧ ¬ ((1 : ℚ)/60 > 0 + period) := by
  constructor
  · norm_num [end_of_tick, period]
  · norm_num [period]

/-- Claim C4, amended: the scheduler reports an overrun if and only if
the actual time at the end-of-tick check is at least (not strictly
beyond) the computed deadline `previous deadline + period`; on overrun
it emits its single report and rebases the deadline to the current
time, so the rebased deadline is never earlier than the delayed tick's
completion time and the following deadline lies strictly in the future
(no backlog of immediate ticks fires); without overrun the deadline is
the computed one and lies strictly ahead of the clock. -/
theorem end_of_tick_spec (next_t now1 now2 : ℚ) (h : now1 ≤ now2) :
    ((end_of_tick next_t now1 now2).2 = true ↔ next_t + period ≤ now1) ∧
    ((end_of_tick next_t now1 now2).2 = true →
      (end_of_tick next_t now1 now2).1 = now2 ∧
      now1 ≤ (end_of_tick next_t now1 now2).1 ∧
      now2 < (end_of_tick next_t now1 now2).1 + period) ∧
    ((end_of_tick next_t now1 now2).2 = false →
      (end_of_tick next_t now1 now2).1 = next_t + period ∧
      now1 < (end_of_tick next_t now1 now2).1) := by
  have hp : (0 : ℚ) < period := by norm_num [period]
  by_cases hc : 0 < next_t + period - now1
  · have he : end_of_tick next_t now1 now2 = (next_t + period, false) := by
      simp only [end_of_tick]
      rw [if_pos hc]
    rw [he]
    refine ⟨⟨fun hx => by simp at hx, fun hle => absurd hle (by push_neg; linarith)⟩,
      fun hx => by simp at hx,
      fun _ => ⟨rfl, by show now1 < next_t + period; linarith⟩⟩
  · have he : end_of_tick next_t now1 now2 = (now2, true) := by
      simp only [end_of_tick]
      rw [if_neg hc]
    rw [he]
    refine ⟨⟨fun _ => by linarith, fun _ => rfl⟩,
      fun _ => ⟨rfl, h, by show now2 < now2 + period; linarith⟩,
      fun hx => by simp at hx⟩

/-- Witness for the amended C4 at concrete clock values. -/
theorem end_of_tick_spec_w :
    (1 : ℚ) ≤ 2 ∧
    (((end_of_tick 0 1 2).2 = true ↔ 0 + period ≤ 1) ∧
     ((end_of_tick 0 1 2).2 = true →
       (end_of_tick 0 1 2).1 = 2 ∧
       1 ≤ (end_of_tick 0 1 2).1 ∧
       2 < (end_of_tick 0 1 2).1 + period) ∧
     ((end_of_tick 0 1 2).2 = false →
       (end_of_tick 0 1 2).1 = 0 + period ∧
       1 < (end_of_tick 0 1 2).1)) :=
  ⟨by norm_num, end_of_tick_spec 0 1 2 (by norm_num)⟩

/-- Correlation coefficient of the motion model, `rho = 0.92`
(server.py line 31, the value passed at line 45). -/
noncomputable def rho : ℝ := 0.92

/-- Euler integration step of the motion model, `dt = 0.01`
(server.py line 31, the value passed at line 45). -/
noncomputable def dt : ℝ := 0.01

/-- Innovation standard deviation (server.py line 32):
`sigma_eps = aabs * np.sqrt(1 - rho**2) * np.sqrt(np.pi / 2)`,
computed per channel.  Float arithmetic is modelled over the reals. -/
noncomputable def sigma_eps (aabs : Fin 6 → ℝ) (i : Fin 6) : ℝ :=
  aabs i * Real.sqrt (1 - rho ^ 2) * Real.sqrt (Real.pi / 2)

/-- One step of `_advance_vector` (server.py lines 31-36).  The draw
`eps = rng.normal(0.0, sigma_eps)` is modelled as `sigma_eps * z` with
`z` the vector of standard normal draws supplied as an input, which is
exactly the scaling property of the normal family. -/
noncomputable def advance_vector (x v aabs : Fin 6 → ℝ) (z : Fin 6 → ℝ) :
    (Fin 6 → ℝ) × (Fin 6 → ℝ) :=
  let eps := fun i => sigma_eps aabs i * z i
  let v_next := fun i => rho * v i + eps i
  let x_next := fun i => x i + v_next i * dt
  (x_next, v_next)

/-- Claim C5: one advance of the motion model computes, per channel
`i`, the innovation standard deviation
`sigma_i = amplitude_i * sqrt(1 - rho^2) * sqrt(pi/2)` with
`rho = 0.92`, draws `eps_i` as a centred normal scaled to `sigma_i`,
updates the velocity to `rho * velocity_i + eps_i`, and updates the
position to `position_i + velocity_next_i * dt` with `dt = 0.01`. -/
theorem advance_vector_formulas (x v aabs z : Fin 6 → ℝ) (i : Fin 6) :
    sigma_eps aabs i =
      aabs i * Real.sqrt (1 - (0.92 : ℝ) ^ 2) * Real.sqrt (Real.pi / 2) ∧
    (advance_vector x v aabs z).2 i =
      (0.92 : ℝ) * v i + sigma_eps aabs i * z i ∧
    (advance_vector x v aabs z).1 i =
      x i + (advance_vector x v aabs z).2 i * (0.01 : ℝ) :=
  ⟨rfl, rfl, rfl⟩

/-- Iteration of the generator's state update, the body of the
`while True:` loop of `sensors_data_generator` (server.py lines 44-46),
with the standard normal draws of step `n` given by `z n`. -/
noncomputable def iterate_advance (aabs : Fin 6 → ℝ) (z : ℕ → Fin 6 → ℝ) :
    ℕ → (Fin 6 → ℝ) × (Fin 6 → ℝ) → (Fin 6 → ℝ) × (Fin 6 → ℝ)
  | 0, s => s
  | n + 1, s =>
    let s1 := iterate_advance aabs z n s
    advance_vector s1.1 s1.2 aabs (z n)

/-- Claim C6: with the per-step noise forced to zero, `n` advances of
the motion model scale each velocity channel by exactly `rho ^ n`. -/
theorem velocity_ar1_zero_noise (aabs x v : Fin 6 → ℝ) (n : ℕ) (i : Fin 6) :
    (iterate_advance aabs (fun _ _ => 0) n (x, v)).2 i = rho ^ n * v i := by
  induction n with
  | zero => simp [iterate_advance]
  | succ n ih =>
    simp only [iterate_advance, advance_vector]
    simp [ih, pow_succ]
    ring

/-- Amplitude literal of `sensors_data_generator` (server.py line 40),
before the in-place scaling.  Decimal literals are modelled exactly,
over the rationals. -/
def aabs_base : Fin 6 → ℚ :=
  ![11.333333, 5.133333, 17.133333, 53.066667, 15.266667, 69.8]

/-- The in-place scaling `aabs *= 200` (server.py line 41). -/
def aabs_scaled : Fin 6 → ℚ := fun i => aabs_base i * 200

/-- Initial velocity of the generator, `v = aabs.copy()` taken after
the scaling (server.py line 42). -/
def v_init : Fin 6 → ℚ := aabs_scaled

/-- Initial position of the generator (server.py line 43). -/
def x_init : Fin 6 → ℚ := ![17.0, 14.0, 19.0, -42.0, -5.0, 99.0]

/-- Claim C10: at startup the generator's velocity equals the
200x-scaled amplitude vector and its position is the constant vector
(17, 14, 19, -42, -5, 99); every channel of this initial state is
non-zero, so the first emitted samples are not drawn from rest. -/
theorem generator_initial_state :
    (∀ i, v_init i = 200 * aabs_base i) ∧
    (∀ i, x_init i = (![17, 14, 19, -42, -5, 99] : Fin 6 → ℚ) i) ∧
    (∀ i, v_init i ≠ 0) ∧ (∀ i, x_init i ≠ 0) := by
  refine ⟨?_, ?_, ?_, ?_⟩ <;> intro i <;> fin_cases i <;>
    norm_num [v_init, aabs_scaled, aabs_base, x_init]

/-- Rounding of a value to 0 decimal places as done by Python's format
`f"{val:.0f}"`: nearest integer, ties to even. -/
def pyRound0 (q : ℚ) : ℤ :=
  if q - ⌊q⌋ < 1/2 then ⌊q⌋
  else if 1/2 < q - ⌊q⌋ then ⌊q⌋ + 1
  else if ⌊q⌋ % 2 = 0 then ⌊q⌋ else ⌊q⌋ + 1

/-- Formatting of one channel value, `f"{val:.0f}"` (server.py line 46):
the rounded value printed with no fractional digits.  (For a negative
float rounding to zero CPython prints "-0"; the sign is a float artefact
with no numeric content and is not modelled.) -/
def format_val (q : ℚ) : String := Int.repr (pyRound0 q)

/-- Python's `",".join(parts)` (server.py line 46). -/
def join_comma : List String → String
  | [] => ""
  | [a] => a
  | a :: b :: rest => a ++ "," ++ join_comma (b :: rest)

/-- The six formatted channel fields of one Sample, in the fixed order
of the position vector: gyro x, y, z then accel x, y, z. -/
def sample_fields (x : Fin 6 → ℚ) : List String :=
  [format_val (x 0), format_val (x 1), format_val (x 2),
   format_val (x 3), format_val (x 4), format_val (x 5)]

/-- The string yielded by `sensors_data_generator` each tick
(server.py line 46). -/
def sample_values (x : Fin 6 → ℚ) : String := join_comma (sample_fields x)

/-- The data line sent to one client (server.py line 71):
`line = f"{counter},{values}"`. -/
def data_line (counter : Nat) (values : String) : String :=
  Nat.repr counter ++ "," ++ values

/-- Splitting a character list at every comma: the reading of a
comma-separated line, used to state what its fields are. -/
def split_commas : List Char → List (List Char)
  | [] => [[]]
  | c :: cs =>
    if c = ',' then [] :: split_commas cs
    else
      match split_commas cs with
      | [] => [[c]]
      | f :: fs => (c :: f) :: fs

theorem split_commas_ne_nil (cs : List Char) : split_commas cs ≠ [] := by
  induction cs with
  | nil => simp [split_commas]
  | cons c cs ih =>
    by_cases hc : c = ','
    · simp [split_commas, hc]
    · simp only [split_commas, if_neg hc]
      cases hs : split_commas cs with
      | nil => simp
      | cons f fs => simp

theorem split_commas_no_comma {u : List Char} (h : ∀ c ∈ u, c ≠ ',') :
    split_commas u = [u] := by
  induction u with
  | nil => rfl
  | cons c cs ih =>
    have hc : c ≠ ',' := h c (List.mem_cons_self c cs)
    have hrest : split_commas cs = [cs] :=
      ih fun d hd => h d (List.mem_cons_of_mem c hd)
    simp [split_commas, hc, hrest]

theorem split_commas_append {u : List Char} (rest : List Char)
    (h : ∀ c ∈ u, c ≠ ',') :
    split_commas (u ++ ',' :: rest) = u :: split_commas rest := by
  induction u with
  | nil => simp [split_commas]
  | cons c cs ih =>
    have hc : c ≠ ',' := h c (List.mem_cons_self c cs)
    have hrest : split_commas (cs ++ ',' :: rest) = cs :: split_commas rest :=
      ih fun d hd => h d (List.mem_cons_of_mem c hd)
    simp [split_commas, hc, hrest]

theorem data_append : ∀ s t : String, (s ++ t).data = s.data ++ t.data
  | ⟨_⟩, ⟨_⟩ => rfl

/-- Splitting at commas is a left inverse of the comma join on
comma-free fields. -/
theorem split_commas_join_comma :
    ∀ fs : List String, fs ≠ [] → (∀ f ∈ fs, ∀ c ∈ f.data, c ≠ ',') →
      split_commas (join_comma fs).data = fs.map String.data := by
  intro fs
  induction fs with
  | nil => intro h; cases h rfl
  | cons a fs ih =>
    intro _ h
    cases fs with
    | nil =>
      have ha : ∀ c ∈ a.data, c ≠ ',' := h a (List.mem_cons_self a [])
      simp [join_comma, split_commas_no_comma ha]
    | cons b rest =>
      have ha : ∀ c ∈ a.data, c ≠ ',' := h a (List.mem_cons_self a _)
      have hd : (a ++ "," ++ join_comma (b :: rest)).data =
          a.data ++ ',' :: (join_comma (b :: rest)).data := by
        rw [data_append, data_append]
        simp
      have htail : split_commas (join_comma (b :: rest)).data =
          (b :: rest).map String.data :=
        ih (by simp) fun f hf c hc => h f (List.mem_cons_of_mem a hf) c hc
      simp only [join_comma, hd, split_commas_append _ ha, htail,
        List.map_cons]

/-- Every character of a comma join is a comma or comes from one of the
joined fields. -/
theorem mem_join_comma :
    ∀ {fs : List String} {c : Char}, c ∈ (join_comma fs).data →
      c = ',' ∨ ∃ f ∈ fs, c ∈ f.data := by
  intro fs
  induction fs with
  | nil => intro c hc; simp [join_comma] at hc
  | cons a fs ih =>
    intro c hc
    cases fs with
    | nil =>
      exact Or.inr ⟨a, List.mem_cons_self a [], hc⟩
    | cons b rest =>
      simp only [join_comma] at hc
      rw [data_append, data_append] at hc
      rcases List.mem_append.mp hc with h1 | h2
      · rcases List.mem_append.mp h1 with h3 | h4
        · exact Or.inr ⟨a, List.mem_cons_self a _, h3⟩
        · left
          simpa using h4
      · rcases ih h2 with h5 | ⟨f, hf, hcf⟩
        · exact Or.inl h5
        · exact Or.inr ⟨f, List.mem_cons_of_mem a hf, hcf⟩

theorem digitChar_isDigit : ∀ m, m < 10 → (Nat.digitChar m).isDigit = true := by
  decide

theorem toDigitsCore_digits :
    ∀ (fuel n : Nat) (ds : List Char), (∀ c ∈ ds, c.isDigit = true) →
      ∀ c ∈ Nat.toDigitsCore 10 fuel n ds, c.isDigit = true := by
  intro fuel
  induction fuel with
  | zero =>
    intro n ds h c hc
    exact h c hc
  | succ fuel ih =>
    intro n ds h c hc
    have hd : ∀ c ∈ Nat.digitChar (n % 10) :: ds, c.isDigit = true := by
      intro d hd
      rcases List.mem_cons.mp hd with h1 | h2
      · subst h1
        exact digitChar_isDigit _ (Nat.mod_lt n (by norm_num))
      · exact h d h2
    simp only [Nat.toDigitsCore] at hc
    by_cases hz : n / 10 = 0
    · rw [if_pos hz] at hc
      exact hd c hc
    · rw [if_neg hz] at hc
      exact ih (n / 10) _ hd c hc

theorem natRepr_digits (n : Nat) : ∀ c ∈ (Nat.repr n).data, c.isDigit = true := by
  intro c hc
  have : c ∈ Nat.toDigitsCore 10 (n + 1) n [] := hc
  exact toDigitsCore_digits (n + 1) n [] (by simp) c this

theorem intRepr_chars (z : ℤ) :
    ∀ c ∈ (Int.repr z).data, c.isDigit = true ∨ c = '-' := by
  cases z with
  | ofNat m =>
    intro c hc
    exact Or.inl (natRepr_digits m c hc)
  | negSucc m =>
    intro c hc
    have hd : (Int.repr (Int.negSucc m)).data =
        '-' :: (Nat.repr (m + 1)).data := by
      show (("-" ++ Nat.repr (m + 1) : String)).data = _
      rw [data_append]
      rfl
    rw [hd] at hc
    rcases List.mem_cons.mp hc with h1 | h2
    · exact Or.inr h1
    · exact Or.inl (natRepr_digits (m + 1) c h2)

theorem isDigit_ne_comma {c : Char} (h : c.isDigit = true) : c ≠ ',' := by
  intro hc
  subst hc
  exact absurd h (by decide)

theorem isDigit_ne_dot {c : Char} (h : c.isDigit = true) : c ≠ '.' := by
  intro hc
  subst hc
  exact absurd h (by decide)

theorem intRepr_no_comma (z : ℤ) : ∀ c ∈ (Int.repr z).data, c ≠ ',' := by
  intro c hc
  rcases intRepr_chars z c hc with h | h
  · exact isDigit_ne_comma h
  · subst h
    decide

theorem intRepr_no_dot (z : ℤ) : ∀ c ∈ (Int.repr z).data, c ≠ '.' := by
  intro c hc
  rcases intRepr_chars z c hc with h | h
  · exact isDigit_ne_dot h
  · subst h
    decide

theorem floor_le_pyRound0 (q : ℚ) :
    pyRound0 q = ⌊q⌋ ∨ pyRound0 q = ⌊q⌋ + 1 := by
  unfold pyRound0
  split_ifs <;> simp

/-- The banker's rounding lands within half a unit of the value. -/
theorem pyRound0_dist (q : ℚ) : |q - (pyRound0 q : ℚ)| ≤ 1/2 := by
  have h0 : (⌊q⌋ : ℚ) ≤ q := Int.floor_le q
  have h1 : q < ⌊q⌋ + 1 := Int.lt_floor_add_one q
  unfold pyRound0
  split_ifs with ha hb hc
  · rw [abs_of_nonneg (by linarith)]
    linarith
  · push_cast
    rw [abs_of_nonpos (by linarith)]
    linarith
  · rw [abs_of_nonneg (by linarith)]
    linarith
  · push_cast
    rw [abs_of_nonpos (by linarith)]
    linarith

/-- The banker's rounding picks a nearest integer. -/
theorem pyRound0_nearest (q : ℚ) (z : ℤ) :
    |q - (pyRound0 q : ℚ)| ≤ |q - (z : ℚ)| := by
  by_cases hz : z = pyRound0 q
  · subst hz
    exact le_refl _
  · have hge : (1 : ℚ) ≤ |(pyRound0 q : ℚ) - (z : ℚ)| := by
      have hne : pyRound0 q - z ≠ 0 := sub_ne_zero.mpr fun hh => hz hh.symm
      have := Int.one_le_abs hne
      calc (1 : ℚ) = ((1 : ℤ) : ℚ) := by norm_num
        _ ≤ ((|pyRound0 q - z| : ℤ) : ℚ) := by exact_mod_cast this
        _ = |(pyRound0 q : ℚ) - (z : ℚ)| := by push_cast; rfl
    have htri : |(pyRound0 q : ℚ) - (z : ℚ)| ≤
        |(pyRound0 q : ℚ) - q| + |q - (z : ℚ)| := abs_sub_le _ _ _
    have hhalf : |q - (pyRound0 q : ℚ)| ≤ 1/2 := pyRound0_dist q
    have hsym : |(pyRound0 q : ℚ) - q| = |q - (pyRound0 q : ℚ)| := abs_sub_comm _ _
    linarith

/-- Claim C7: splitting a data line at its commas yields exactly seven
fields; the first is the client's private integer counter, the
remaining six are the Sample's channel values rounded to the nearest
integer (ties to even), in the fixed order gyro x, y, z then accel
x, y, z, each printed as an integer; no '.' occurs anywhere in the
line, so no fractional part is emitted; and the printed rounding is
indeed a nearest integer of each channel value. -/
theorem data_line_fields (counter : Nat) (x : Fin 6 → ℚ) :
    split_commas (data_line counter (sample_values x)).data =
      (Nat.repr counter :: sample_fields x).map String.data ∧
    (Nat.repr counter :: sample_fields x).length = 7 ∧
    sample_fields x =
      [Int.repr (pyRound0 (x 0)), Int.repr (pyRound0 (x 1)),
       Int.repr (pyRound0 (x 2)), Int.repr (pyRound0 (x 3)),
       Int.repr (pyRound0 (x 4)), Int.repr (pyRound0 (x 5))] ∧
    (∀ ch ∈ (data_line counter (sample_values x)).data, ch ≠ '.') ∧
    (∀ i : Fin 6, ∀ z : ℤ,
      |x i - (pyRound0 (x i) : ℚ)| ≤ |x i - (z : ℚ)|) := by
  have hfields : ∀ f ∈ Nat.repr counter :: sample_fields x,
      ∀ c ∈ f.data, c ≠ ',' := by
    intro f hf c hc
    rcases List.mem_cons.mp hf with h1 | h2
    · subst h1
      exact isDigit_ne_comma (natRepr_digits counter c hc)
    · simp only [sample_fields, format_val, List.mem_cons,
        List.not_mem_nil, or_false] at h2
      rcases h2 with h | h | h | h | h | h <;> subst h <;>
        exact intRepr_no_comma _ c hc
  have hjoin : data_line counter (sample_values x) =
      join_comma (Nat.repr counter :: sample_fields x) := by
    simp [data_line, sample_values, sample_fields, join_comma]
  refine ⟨?_, rfl, rfl, ?_, fun i => pyRound0_nearest (x i)⟩
  · rw [hjoin]
    exact split_commas_join_comma _ (by simp) hfields
  · intro ch hch
    rw [hjoin] at hch
    rcases mem_join_comma hch with h | ⟨f, hf, hcf⟩
    · subst h
      decide
    · rcases List.mem_cons.mp hf with h1 | h2
      · subst h1
        exact isDigit_ne_dot (natRepr_digits counter ch hcf)
      · simp only [sample_fields, format_val, List.mem_cons,
          List.not_mem_nil, or_false] at h2
        rcases h2 with h | h | h | h | h | h <;> subst h <;>
          exact intRepr_no_dot _ ch hcf

theorem mem_setEntry {r : Registry} {c : ClientId} {k : Nat} {p : ClientId × Nat}
    (hnd : (keys r).Nodup) (hp : p ∈ setEntry r c k) :
    p = (c, k) ∨ (p ∈ r ∧ p.1 ≠ c) := by
  induction r with
  | nil =>
    simp only [setEntry, List.mem_singleton] at hp
    exact Or.inl hp
  | cons q r ih =>
    obtain ⟨c1, k1⟩ := q
    simp only [keys, List.map_cons, List.nodup_cons] at hnd
    by_cases h1 : c1 = c
    · subst h1
      simp only [setEntry, if_true] at hp
      rcases List.mem_cons.mp hp with h | h
      · exact Or.inl h
      · refine Or.inr ⟨List.mem_cons_of_mem _ h, ?_⟩
        intro hpc
        exact hnd.1 (List.mem_map.mpr ⟨p, h, hpc⟩)
    · simp only [setEntry, if_neg h1, List.mem_cons] at hp
      rcases hp with rfl | h
      · exact Or.inr ⟨List.mem_cons_self _ _, h1⟩
      · rcases ih hnd.2 h with h2 | ⟨h3, h4⟩
        · exact Or.inl h2
        · exact Or.inr ⟨List.mem_cons_of_mem _ h3, h4⟩

theorem keys_setEntry_mem {r : Registry} {c d : ClientId} {k : Nat}
    (hd : d ∈ keys (setEntry r c k)) : d ∈ keys r ∨ d = c := by
  induction r with
  | nil =>
    simp only [setEntry, keys, List.map_cons, List.map_nil,
      List.mem_singleton] at hd
    exact Or.inr hd
  | cons q r ih =>
    obtain ⟨c1, k1⟩ := q
    by_cases h1 : c1 = c
    · subst h1
      simp only [setEntry, if_true] at hd
      simp only [keys, List.map_cons, List.mem_cons] at hd ⊢
      rcases hd with h | h
      · exact Or.inr h
      · exact Or.inl (Or.inr h)
    · simp only [setEntry, if_neg h1, keys, List.map_cons,
        List.mem_cons] at hd ⊢
      rcases hd with h | h
      · exact Or.inl (Or.inl h)
      · rcases ih h with h2 | h2
        · exact Or.inl (Or.inr h2)
        · exact Or.inr h2

theorem nodup_keys_setEntry {r : Registry} {c : ClientId} (k : Nat)
    (h : (keys r).Nodup) : (keys (setEntry r c k)).Nodup := by
  induction r with
  | nil => simp [setEntry, keys]
  | cons q r ih =>
    obtain ⟨c1, k1⟩ := q
    simp only [keys, List.map_cons, List.nodup_cons] at h
    by_cases h1 : c1 = c
    · subst h1
      simpa [setEntry, keys, List.nodup_cons] using h
    · have hrec := ih h.2
      simp only [setEntry, if_neg h1, keys, List.map_cons, List.nodup_cons]
      refine ⟨?_, hrec⟩
      intro hmem
      rcases keys_setEntry_mem hmem with h2 | h2
      · exact h.1 h2
      · exact h1 h2

theorem popEntry_sublist (r : Registry) (c : ClientId) :
    (popEntry r c).Sublist r := by
  induction r with
  | nil => simp [popEntry]
  | cons q r ih =>
    obtain ⟨c1, k1⟩ := q
    by_cases h1 : c1 = c
    · simp only [popEntry, if_pos h1]
      exact List.sublist_cons_self (c1, k1) r
    · simp only [popEntry, if_neg h1]
      exact ih.cons₂ (c1, k1)

theorem mem_popEntry {r : Registry} {c : ClientId} {p : ClientId × Nat}
    (hp : p ∈ popEntry r c) : p ∈ r :=
  (popEntry_sublist r c).mem hp

theorem nodup_keys_popEntry {r : Registry} (c : ClientId)
    (h : (keys r).Nodup) : (keys (popEntry r c)).Nodup :=
  ((popEntry_sublist r c).map Prod.fst).nodup h

theorem lookup?_eq_none_of_not_mem {r : Registry} {c : ClientId}
    (h : c ∉ keys r) : lookup? r c = none := by
  induction r with
  | nil => rfl
  | cons q r ih =>
    obtain ⟨c1, k1⟩ := q
    simp only [keys, List.map_cons, List.mem_cons] at h
    push_neg at h
    have h1 : ¬ c1 = c := fun hh => h.1 hh.symm
    simp only [lookup?, if_neg h1]
    exact ih h.2

theorem lookup?_popEntry_self {r : Registry} (c : ClientId)
    (h : (keys r).Nodup) : lookup? (popEntry r c) c = none := by
  induction r with
  | nil => rfl
  | cons q r ih =>
    obtain ⟨c1, k1⟩ := q
    simp only [keys, List.map_cons, List.nodup_cons] at h
    by_cases h1 : c1 = c
    · subst h1
      simp only [popEntry, if_pos rfl]
      exact lookup?_eq_none_of_not_mem h.1
    · simp only [popEntry, if_neg h1, lookup?, if_neg h1]
      exact ih h.2

theorem lookup?_popEntry_none {r : Registry} {c : ClientId} (c0 : ClientId)
    (h : lookup? r c = none) : lookup? (popEntry r c0) c = none := by
  induction r with
  | nil => rfl
  | cons q r ih =>
    obtain ⟨c1, k1⟩ := q
    by_cases h1 : c1 = c
    · subst h1
      simp [lookup?] at h
    · simp only [lookup?, if_neg h1] at h
      by_cases h2 : c1 = c0
      · simpa [popEntry, h2] using h
      · simp only [popEntry, if_neg h2, lookup?, if_neg h1]
        exact ih h

theorem lookup?_foldl_popEntry_none {c : ClientId} :
    ∀ (rm : List ClientId) (r : Registry), lookup? r c = none →
      lookup? (rm.foldl popEntry r) c = none := by
  intro rm
  induction rm with
  | nil => intro r h; exact h
  | cons c0 rm ih =>
    intro r h
    exact ih (popEntry r c0) (lookup?_popEntry_none c0 h)

theorem nodup_keys_foldl_popEntry :
    ∀ (rm : List ClientId) (r : Registry), (keys r).Nodup →
      (keys (rm.foldl popEntry r)).Nodup := by
  intro rm
  induction rm with
  | nil => intro r h; exact h
  | cons c0 rm ih =>
    intro r h
    exact ih (popEntry r c0) (nodup_keys_popEntry c0 h)

theorem mem_foldl_popEntry {p : ClientId × Nat} :
    ∀ (rm : List ClientId) (r : Registry), p ∈ rm.foldl popEntry r → p ∈ r := by
  intro rm
  induction rm with
  | nil => intro r h; exact h
  | cons c0 rm ih =>
    intro r h
    exact mem_popEntry (ih (popEntry r c0) h)

theorem lookup?_foldl_popEntry_of_mem :
    ∀ (rm : List ClientId) (r : Registry), (keys r).Nodup →
      ∀ c ∈ rm, lookup? (rm.foldl popEntry r) c = none := by
  intro rm
  induction rm with
  | nil =>
    intro r _ c hc
    simp at hc
  | cons c0 rm ih =>
    intro r hr c hc
    by_cases hmem : c ∈ rm
    · exact ih (popEntry r c0) (nodup_keys_popEntry c0 hr) c hmem
    · have hc0 : c = c0 := by
        rcases List.mem_cons.mp hc with h | h
        · exact h
        · exact absurd h hmem
      subst hc0
      exact lookup?_foldl_popEntry_none rm (popEntry r c)
        (lookup?_popEntry_self c hr)

/-- The send loop of one tick (server.py lines 68-75), with the
per-connection send outcomes given by the oracle `ok`: the loop walks
the snapshot; on success it records the line `(ws, counter)` and
performs the counter assignment of line 73, on any exception it appends
the connection to `to_remove` (line 75) and continues with the next
client; it never re-raises.  Accumulators: registry, `to_remove`, lines
sent so far. -/
def fan_loop (ok : ClientId → Bool) :
    List (ClientId × Nat) → Registry → List ClientId → List (ClientId × Nat) →
      Registry × List ClientId × List (ClientId × Nat)
  | [], reg, rm, lines => (reg, rm, lines)
  | (c, k) :: rest, reg, rm, lines =>
    if ok c then fan_loop ok rest (setEntry reg c (k + 1)) rm (lines ++ [(c, k)])
    else fan_loop ok rest reg (rm ++ [c]) lines

/-- One whole tick's client pass (server.py lines 67-78): snapshot
`list(clients.items())`, the send loop, then `clients.pop(ws, None)`
for every connection marked for removal.  Returns the new registry and
the data lines sent this tick, as (connection, counter) pairs. -/
def run_tick (ok : ClientId → Bool) (reg : Registry) :
    Registry × List (ClientId × Nat) :=
  let out := fan_loop ok reg reg [] []
  (out.2.1.foldl popEntry out.1, out.2.2)

theorem fan_loop_spec (ok : ClientId → Bool) :
    ∀ (snap : List (ClientId × Nat)) (reg : Registry) (rm : List ClientId)
      (lines : List (ClientId × Nat)),
      (fan_loop ok snap reg rm lines).2.2 =
        lines ++ snap.filter (fun p => ok p.1) ∧
      (fan_loop ok snap reg rm lines).2.1 =
        rm ++ (snap.filter (fun p => !ok p.1)).map Prod.fst ∧
      ((keys reg).Nodup → (keys (fan_loop ok snap reg rm lines).1).Nodup) := by
  intro snap
  induction snap with
  | nil =>
    intro reg rm lines
    simp [fan_loop]
  | cons p rest ih =>
    intro reg rm lines
    obtain ⟨c, k⟩ := p
    by_cases hc : ok c
    · have h1 := ih (setEntry reg c (k + 1)) rm (lines ++ [(c, k)])
      simp only [fan_loop, if_pos hc]
      refine ⟨?_, ?_, ?_⟩
      · rw [h1.1]
        simp [hc]
      · rw [h1.2.1]
        simp [hc]
      · intro hr
        exact h1.2.2 (nodup_keys_setEntry _ hr)
    · have h1 := ih reg (rm ++ [c]) lines
      simp only [fan_loop, if_neg hc]
      refine ⟨?_, ?_, ?_⟩
      · rw [h1.1]
        simp [hc]
      · rw [h1.2.1]
        simp [hc]
      · exact h1.2.2

/-- Claim C3: within one tick, a failing send never propagates out of
the loop — the tick function is total and, whatever connections fail,
every client of the snapshot whose send succeeds is still sent exactly
its own line (the lines emitted are precisely the snapshot filtered to
the successful sends, in snapshot order), while every connection whose
send failed is unregistered once the iteration completes. -/
theorem tick_isolates_failures (ok : ClientId → Bool) (reg : Registry)
    (h : (keys reg).Nodup) :
    (run_tick ok reg).2 = reg.filter (fun p => ok p.1) ∧
    ∀ p ∈ reg, ok p.1 = false → lookup? (run_tick ok reg).1 p.1 = none := by
  have hspec := fan_loop_spec ok reg reg [] []
  constructor
  · show (fan_loop ok reg reg [] []).2.2 = reg.filter (fun p => ok p.1)
    rw [hspec.1]
    simp
  · intro p hp hfail
    show lookup? ((fan_loop ok reg reg [] []).2.1.foldl popEntry
      (fan_loop ok reg reg [] []).1) p.1 = none
    have hrm : p.1 ∈ (fan_loop ok reg reg [] []).2.1 := by
      rw [hspec.2.1]
      simp only [List.nil_append, List.mem_map]
      exact ⟨p, List.mem_filter.mpr ⟨hp, by simp [hfail]⟩, rfl⟩
    exact lookup?_foldl_popEntry_of_mem _ _ (hspec.2.2 h) p.1 hrm

/-- Witness for C3 on a concrete registry where client 1's send fails
while clients 0 and 2 succeed. -/
theorem tick_isolates_failures_w :
    (keys [(0, 4), (1, 7), (2, 1)]).Nodup ∧
    ((run_tick (fun c => c != 1) [(0, 4), (1, 7), (2, 1)]).2 =
      List.filter (fun p => (fun c => c != 1) p.1) [(0, 4), (1, 7), (2, 1)] ∧
     ∀ p ∈ [(0, 4), (1, 7), (2, 1)], (fun c => c != 1) p.1 = false →
       lookup? (run_tick (fun c => c != 1) [(0, 4), (1, 7), (2, 1)]).1 p.1 =
         none) :=
  ⟨by decide, tick_isolates_failures (fun c => c != 1)
    [(0, 4), (1, 7), (2, 1)] (by decide)⟩

/-- Messages a client can receive: the startup header (server.py line
55) or a data line `f"{counter},{values}"` (line 71) carrying this
client's private counter and the tick's payload. -/
inductive Msg
  | header (s : String)
  | data (counter : Nat) (vals : String)

/-- Header payloads among a message list, in order. -/
def headersOf : List Msg → List String
  | [] => []
  | Msg.header s :: l => s :: headersOf l
  | Msg.data _ _ :: l => headersOf l

/-- Counters of the data lines among a message list, in order. -/
def data_counters : List Msg → List Nat
  | [] => []
  | Msg.header _ :: l => data_counters l
  | Msg.data k _ :: l => k :: data_counters l

theorem headersOf_append (l1 l2 : List Msg) :
    headersOf (l1 ++ l2) = headersOf l1 ++ headersOf l2 := by
  induction l1 with
  | nil => rfl
  | cons m l1 ih => cases m <;> simp [headersOf, ih]

theorem data_counters_append (l1 l2 : List Msg) :
    data_counters (l1 ++ l2) = data_counters l1 ++ data_counters l2 := by
  induction l1 with
  | nil => rfl
  | cons m l1 ih => cases m <;> simp [data_counters, ih]

/-- Phase of the broadcast loop: between ticks, or inside the fan-out
of one tick, holding this tick's payload, the rest of the snapshot
still to process, and the connections marked for removal so far. -/
inductive Phase
  | idle
  | inTick (vals : String) (pending : List (ClientId × Nat))
      (toRemove : List ClientId)

/-- Global server state: the `clients` dict, the handles ever connected
(the websockets library never reuses a connection object), the stream
of messages sent to each handle so far, and the loop's phase. -/
structure SState where
  clients : Registry
  used : List ClientId
  sent : ClientId → List Msg
  phase : Phase

/-- Appending one sent message to one client's stream. -/
def sendTo (sent : ClientId → List Msg) (c : ClientId) (m : Msg) :
    ClientId → List Msg :=
  fun c0 => if c0 = c then sent c ++ [m] else sent c0

theorem sendTo_self (sent : ClientId → List Msg) (c : ClientId) (m : Msg) :
    sendTo sent c m c = sent c ++ [m] := by
  simp [sendTo]

theorem sendTo_ne (sent : ClientId → List Msg) {c c0 : ClientId} (m : Msg)
    (h : c0 ≠ c) : sendTo sent c m c0 = sent c0 := by
  simp [sendTo, h]

/-- Interleaved small-step semantics of the server at the granularity
of its await points, parameterised by the startup header string `H`:

* `connect`: `register_client` runs (server.py line 52) and the header
  is sent (line 55) to a fresh handle; the transport writes the header
  frame before the handler's first suspension, so no data line can
  precede it on this connection.
* `disconnect`: the handler's finally block pops the handle (line 58);
  it may interleave anywhere.
* `tick_start`: the loop draws `values = next(gen)` and takes the
  snapshot `list(clients.items())` (lines 65-69).  The code skips the
  loop body when `clients` is empty; a tick over an empty snapshot
  behaves identically.
* `send_ok` / `send_fail`: one iteration of the send loop (lines
  70-75) for the head of the remaining snapshot: on success the line
  `f"{counter},{values}"` is delivered and `clients[ws] = counter + 1`
  runs; on failure the connection is only marked.
* `tick_end`: the removal pass (lines 76-78), popping every marked
  connection.

Connect and disconnect may interleave freely between any two steps,
which over-approximates the interleavings possible at the actual await
points of the asyncio loop. -/
inductive Step (H : String) : SState → SState → Prop
  | connect (s : SState) (c : ClientId) (h : c ∉ s.used) :
      Step H s ⟨setEntry s.clients c 0, c :: s.used,
        sendTo s.sent c (Msg.header H), s.phase⟩
  | disconnect (s : SState) (c : ClientId) :
      Step H s ⟨popEntry s.clients c, s.used, s.sent, s.phase⟩
  | tick_start (s : SState) (vals : String) (h : s.phase = Phase.idle) :
      Step H s ⟨s.clients, s.used, s.sent, Phase.inTick vals s.clients []⟩
  | send_ok (s : SState) (vals : String) (c : ClientId) (k : Nat)
      (rest : List (ClientId × Nat)) (rm : List ClientId)
      (h : s.phase = Phase.inTick vals ((c, k) :: rest) rm) :
      Step H s ⟨setEntry s.clients c (k + 1), s.used,
        sendTo s.sent c (Msg.data k vals), Phase.inTick vals rest rm⟩
  | send_fail (s : SState) (vals : String) (c : ClientId) (k : Nat)
      (rest : List (ClientId × Nat)) (rm : List ClientId)
      (h : s.phase = Phase.inTick vals ((c, k) :: rest) rm) :
      Step H s ⟨s.clients, s.used, s.sent, Phase.inTick vals rest (rm ++ [c])⟩
  | tick_end (s : SState) (vals : String) (rm : List ClientId)
      (h : s.phase = Phase.inTick vals [] rm) :
      Step H s ⟨rm.foldl popEntry s.clients, s.used, s.sent, Phase.idle⟩

/-- The state at server startup: no clients, nothing sent. -/
def initState : SState := ⟨[], [], fun _ => [], Phase.idle⟩

/-- States reachable from startup. -/
inductive Reach (H : String) : SState → Prop
  | init : Reach H initState
  | step {s t : SState} : Reach H s → Step H s t → Reach H t

/-- A well-formed per-client stream: the header exactly once and
first, then data lines whose counters count up from 0. -/
def StreamOK (H : String) (l : List Msg) : Prop :=
  ∃ rest, l = Msg.header H :: rest ∧ headersOf rest = [] ∧
    data_counters rest = List.range (data_counters rest).length

/-- Registry entries are consistent with the state: only
ever-connected handles appear and the stored counter of each entry is
the number of data lines sent to that handle so far. -/
def EntriesOK (s : SState) (l : List (ClientId × Nat)) : Prop :=
  ∀ p ∈ l, p.1 ∈ s.used ∧ p.2 = (data_counters (s.sent p.1)).length

/-- During a tick, the unprocessed snapshot tail has distinct handles
and its captured counters still agree with the streams. -/
def PhaseOK (s : SState) : Prop :=
  ∀ vals pending rm, s.phase = Phase.inTick vals pending rm →
    (keys pending).Nodup ∧ EntriesOK s pending

/-- The reachability invariant of the server. -/
def Inv (H : String) (s : SState) : Prop :=
  (keys s.clients).Nodup ∧
  EntriesOK s s.clients ∧
  (∀ c, c ∉ s.used → s.sent c = []) ∧
  (∀ c, c ∈ s.used → StreamOK H (s.sent c)) ∧
  PhaseOK s

theorem streamOK_append_data {H : String} {l : List Msg}
    (h : StreamOK H l) (vals : String) :
    StreamOK H (l ++ [Msg.data (data_counters l).length vals]) := by
  obtain ⟨rest, rfl, hh, hd⟩ := h
  refine ⟨rest ++ [Msg.data (data_counters rest).length vals], rfl, ?_, ?_⟩
  · rw [headersOf_append, hh]
    rfl
  · rw [data_counters_append]
    generalize hn : (data_counters rest).length = n at hd
    rw [hd]
    simp [data_counters, List.range_succ]

theorem inv_init (H : String) : Inv H initState :=
  ⟨List.nodup_nil, fun p hp => absurd hp (List.not_mem_nil p),
   fun _ _ => rfl, fun c hc => absurd hc (List.not_mem_nil c),
   fun _ _ _ heq => by cases heq⟩

theorem inv_step {H : String} {s t : SState} (hs : Inv H s)
    (st : Step H s t) : Inv H t := by
  obtain ⟨hnd, hent, hun, hstr, hph⟩ := hs
  cases st with
  | connect c hc =>
    refine ⟨nodup_keys_setEntry 0 hnd, ?_, ?_, ?_, ?_⟩
    · intro p hp
      rcases mem_setEntry hnd hp with rfl | ⟨hpr, hpne⟩
      · refine ⟨List.mem_cons_self _ _, ?_⟩
        show (0 : Nat) = (data_counters (sendTo s.sent c (Msg.header H) c)).length
        rw [sendTo_self, hun c hc]
        rfl
      · obtain ⟨h1, h2⟩ := hent p hpr
        refine ⟨List.mem_cons_of_mem _ h1, ?_⟩
        show p.2 = (data_counters (sendTo s.sent c (Msg.header H) p.1)).length
        rw [sendTo_ne _ _ hpne]
        exact h2
    · intro c0 hc0
      have h1 : c0 ≠ c := fun hh => hc0 (hh ▸ List.mem_cons_self c s.used)
      have h2 : c0 ∉ s.used := fun hh => hc0 (List.mem_cons_of_mem _ hh)
      show sendTo s.sent c (Msg.header H) c0 = []
      rw [sendTo_ne _ _ h1]
      exact hun c0 h2
    · intro c0 hc0
      rcases List.mem_cons.mp hc0 with rfl | h0
      · show StreamOK H (sendTo s.sent c0 (Msg.header H) c0)
        rw [sendTo_self, hun c0 hc]
        exact ⟨[], rfl, rfl, rfl⟩
      · by_cases he : c0 = c
        · subst he
          exact absurd h0 hc
        · show StreamOK H (sendTo s.sent c (Msg.header H) c0)
          rw [sendTo_ne _ _ he]
          exact hstr c0 h0
    · intro vals pending rm heq
      obtain ⟨hpnd, hpent⟩ := hph vals pending rm heq
      refine ⟨hpnd, ?_⟩
      intro p hp
      obtain ⟨h1, h2⟩ := hpent p hp
      have hne : p.1 ≠ c := fun hh => hc (hh ▸ h1)
      refine ⟨List.mem_cons_of_mem _ h1, ?_⟩
      show p.2 = (data_counters (sendTo s.sent c (Msg.header H) p.1)).length
      rw [sendTo_ne _ _ hne]
      exact h2
  | disconnect c =>
    refine ⟨nodup_keys_popEntry c hnd, ?_, hun, hstr, ?_⟩
    · intro p hp
      exact hent p (mem_popEntry hp)
    · intro vals pending rm heq
      exact hph vals pending rm heq
  | tick_start vals hphase =>
    refine ⟨hnd, hent, hun, hstr, ?_⟩
    intro vals0 pending rm heq
    cases heq
    exact ⟨hnd, hent⟩
  | send_ok vals c k rest rm hphase =>
    obtain ⟨hpnd, hpent⟩ := hph vals ((c, k) :: rest) rm hphase
    have hcu : c ∈ s.used := (hpent (c, k) (List.mem_cons_self _ _)).1
    have hk : k = (data_counters (s.sent c)).length :=
      (hpent (c, k) (List.mem_cons_self _ _)).2
    have hpnd2 : (c :: keys rest).Nodup := by
      simpa [keys] using hpnd
    refine ⟨nodup_keys_setEntry _ hnd, ?_, ?_, ?_, ?_⟩
    · intro p hp
      rcases mem_setEntry hnd hp with rfl | ⟨hpr, hpne⟩
      · refine ⟨hcu, ?_⟩
        show k + 1 = (data_counters (sendTo s.sent c (Msg.data k vals) c)).length
        rw [sendTo_self, data_counters_append]
        simp [data_counters, hk]
      · obtain ⟨h1, h2⟩ := hent p hpr
        refine ⟨h1, ?_⟩
        show p.2 = (data_counters (sendTo s.sent c (Msg.data k vals) p.1)).length
        rw [sendTo_ne _ _ hpne]
        exact h2
    · intro c0 hc0
      have hne : c0 ≠ c := fun hh => hc0 (hh ▸ hcu)
      show sendTo s.sent c (Msg.data k vals) c0 = []
      rw [sendTo_ne _ _ hne]
      exact hun c0 hc0
    · intro c0 hc0
      by_cases he : c0 = c
      · subst he
        show StreamOK H (sendTo s.sent c0 (Msg.data k vals) c0)
        rw [sendTo_self, hk]
        exact streamOK_append_data (hstr c0 hc0) vals
      · show StreamOK H (sendTo s.sent c (Msg.data k vals) c0)
        rw [sendTo_ne _ _ he]
        exact hstr c0 hc0
    · intro vals0 pending rm0 heq
      cases heq
      refine ⟨(List.nodup_cons.mp hpnd2).2, ?_⟩
      intro p hp
      obtain ⟨h1, h2⟩ := hpent p (List.mem_cons_of_mem _ hp)
      have hne : p.1 ≠ c := by
        intro hh
        exact (List.nodup_cons.mp hpnd2).1 (hh ▸ List.mem_map.mpr ⟨p, hp, rfl⟩)
      refine ⟨h1, ?_⟩
      show p.2 = (data_counters (sendTo s.sent c (Msg.data k vals) p.1)).length
      rw [sendTo_ne _ _ hne]
      exact h2
  | send_fail vals c k rest rm hphase =>
    obtain ⟨hpnd, hpent⟩ := hph vals ((c, k) :: rest) rm hphase
    have hpnd2 : (c :: keys rest).Nodup := by
      simpa [keys] using hpnd
    refine ⟨hnd, hent, hun, hstr, ?_⟩
    intro vals0 pending rm0 heq
    cases heq
    refine ⟨(List.nodup_cons.mp hpnd2).2, ?_⟩
    intro p hp
    exact hpent p (List.mem_cons_of_mem _ hp)
  | tick_end vals rm hphase =>
    refine ⟨nodup_keys_foldl_popEntry rm s.clients hnd, ?_, hun, hstr, ?_⟩
    · intro p hp
      exact hent p (mem_foldl_popEntry rm s.clients hp)
    · intro vals0 pending rm0 heq
      cases heq

/-- Every reachable state satisfies the invariant. -/
theorem inv_of_reach {H : String} {s : SState} (h : Reach H s) : Inv H s := by
  induction h with
  | init => exact inv_init H
  | step _ hstep ih => exact inv_step ih hstep

/-- Claim C1: in every reachable server state, the counters carried by
the data lines sent to any one client form exactly the sequence
0, 1, 2, ...: the first data line sent to a client after it connects
carries 0 and each subsequent one (appended only after a successful
send) carries exactly one more than the previous, regardless of the
interleaved connections, disconnections and ticks of other clients. -/
theorem per_client_counters_sequential (H : String) (s : SState)
    (h : Reach H s) (c : ClientId) :
    data_counters (s.sent c) =
      List.range (data_counters (s.sent c)).length := by
  obtain ⟨-, -, hun, hstr, -⟩ := inv_of_reach h
  by_cases hc : c ∈ s.used
  · obtain ⟨rest, heq, -, hd⟩ := hstr c hc
    rw [heq]
    exact hd
  · rw [hun c hc]
    rfl

/-- Claim C8: the header is the fixed startup string `H`, identical
for all clients: in every reachable state, every client that ever
connected was sent exactly one header, namely `H`, as its very first
message and hence before any data line. -/
theorem header_once_first (H : String) (s : SState) (h : Reach H s)
    (c : ClientId) (hc : c ∈ s.used) :
    headersOf (s.sent c) = [H] ∧
    ∃ rest, s.sent c = Msg.header H :: rest ∧ headersOf rest = [] := by
  obtain ⟨-, -, -, hstr, -⟩ := inv_of_reach h
  obtain ⟨rest, heq, hh, -⟩ := hstr c hc
  refine ⟨?_, rest, heq, hh⟩
  rw [heq]
  show H :: headersOf rest = [H]
  rw [hh]

/-- A concrete three-step run: client 0 connects, a tick starts and
successfully sends it one data line. -/
def exState1 : SState :=
  ⟨setEntry initState.clients 0 0, 0 :: initState.used,
    sendTo initState.sent 0 (Msg.header "HDR"), initState.phase⟩

def exState2 : SState :=
  ⟨exState1.clients, exState1.used, exState1.sent,
    Phase.inTick "1,2,3,4,5,6" exState1.clients []⟩

def exState3 : SState :=
  ⟨setEntry exState2.clients 0 (0 + 1), exState2.used,
    sendTo exState2.sent 0 (Msg.data 0 "1,2,3,4,5,6"),
    Phase.inTick "1,2,3,4,5,6" [] []⟩

theorem exReach3 : Reach "HDR" exState3 :=
  Reach.step
    (Reach.step
      (Reach.step Reach.init
        (Step.connect initState 0 (List.not_mem_nil 0)))
      (Step.tick_start exState1 "1,2,3,4,5,6" rfl))
    (Step.send_ok exState2 "1,2,3,4,5,6" 0 0 [] [] rfl)

/-- Witness for C1 on the concrete run. -/
theorem per_client_counters_sequential_w :
    Reach "HDR" exState3 ∧
    data_counters (exState3.sent 0) =
      List.range (data_counters (exState3.sent 0)).length :=
  ⟨exReach3, per_client_counters_sequential "HDR" exState3 exReach3 0⟩

/-- Witness for C8 on the concrete run. -/
theorem header_once_first_w :
    (Reach "HDR" exState3 ∧ (0 : ClientId) ∈ exState3.used) ∧
    (headersOf (exState3.sent 0) = ["HDR"] ∧
     ∃ rest, exState3.sent 0 = Msg.header "HDR" :: rest ∧
       headersOf rest = []) :=
  ⟨⟨exReach3, List.mem_cons_self 0 []⟩,
    header_once_first "HDR" exState3 exReach3 0 (List.mem_cons_self 0 [])⟩

end GyroFlow
